import Mathlib

/-!
Verification of the incremental class-discovery engine of `turbo-composer`
(`src/rust/src/classmap/{parser,mod,cache}.rs`), as a shallow embedding.

Rust strings are modelled as lists of bytes (`List Nat`); Rust's byte-index
slicing of `&str`, which panics when the index is not a UTF-8 character
boundary, is modelled by functions returning `Option` (`none` models the
panic).  The hand-written byte scanner `extract_php_symbols` is modelled with
an explicit fuel counter (`none` models a loop that fails to advance within
the a-priori bound); its main loop and every helper loop advance the byte
position, which is proved below.
-/

/-- Bytes of an ASCII string literal (used to build concrete inputs). -/
def phpBytes (s : String) : List Nat :=
  s.data.map Char.toNat

/-- `b` is an ASCII letter or underscore: a byte that starts an identifier
and selects the identifier arm of the scanner's `match`. -/
def isIdentStart (b : Nat) : Bool :=
  decide ((65 ≤ b ∧ b ≤ 90) ∨ (97 ≤ b ∧ b ≤ 122) ∨ b = 95)

/-- `b.is_ascii_alphanumeric() || b == b'_'` from the source. -/
def isIdentChar (b : Nat) : Bool :=
  decide ((48 ≤ b ∧ b ≤ 57) ∨ (65 ≤ b ∧ b ≤ 90) ∨ (97 ≤ b ∧ b ≤ 122) ∨ b = 95)

/-- Characters accepted by `read_namespace_name`: alphanumeric, `_`, `\`. -/
def isNsChar (b : Nat) : Bool :=
  isIdentChar b || b == 92

/-- Whitespace bytes accepted by `skip_whitespace`: space, tab, newline, CR. -/
def isWsChar (b : Nat) : Bool :=
  b == 32 || b == 9 || b == 10 || b == 13

/-- `while pos < len && matches!(bytes[pos], b' '|b'\t'|b'\n'|b'\r') { pos += 1 }`. -/
def skipWs (bytes : List Nat) (pos : Nat) : Nat :=
  pos + ((bytes.drop pos).takeWhile isWsChar).length

/-- `while pos < len && (bytes[pos] == b' ' || bytes[pos] == b'\t') { pos += 1 }`
(the indentation skip of the heredoc closing-label scan). -/
def skipSpTab (bytes : List Nat) (pos : Nat) : Nat :=
  pos + ((bytes.drop pos).takeWhile (fun b => b == 32 || b == 9)).length

/-- `while pos < len && (bytes[pos] == b' ' || bytes[pos] == b'\'' || bytes[pos] == b'"')`
(the opener skip after `<<<`). -/
def skipHdQuotes (bytes : List Nat) (pos : Nat) : Nat :=
  pos + ((bytes.drop pos).takeWhile (fun b => b == 32 || b == 39 || b == 34)).length

/-- `while pos < len && bytes[pos] != b'\n' { pos += 1 }`. -/
def skipToNewline (bytes : List Nat) (pos : Nat) : Nat :=
  pos + ((bytes.drop pos).takeWhile (fun b => !(b == 10))).length

/-- The identifier starting at `pos`: the maximal run of
alphanumeric-or-underscore bytes (`read_identifier` reads this slice). -/
def wordAt (bytes : List Nat) (pos : Nat) : List Nat :=
  (bytes.drop pos).takeWhile isIdentChar

/-- Position just after the identifier starting at `pos`. -/
def readIdentEnd (bytes : List Nat) (pos : Nat) : Nat :=
  pos + (wordAt bytes pos).length

/-- The namespace name starting at `pos` (no leading whitespace):
maximal run of alphanumeric, `_` or `\` bytes. -/
def nsNameAt (bytes : List Nat) (pos : Nat) : List Nat :=
  (bytes.drop pos).takeWhile isNsChar

/-- Position just after the namespace name starting at `pos`. -/
def readNsEnd (bytes : List Nat) (pos : Nat) : Nat :=
  pos + (nsNameAt bytes pos).length

/-- Offset consumed by the quoted string literal skip loop:
`\\` followed by another byte advances 2, the closing quote `q` advances 1
and stops, any other byte advances 1. -/
def sqAux (q : Nat) : List Nat → Nat
  | [] => 0
  | [_] => 1
  | b :: c :: t =>
    if b = 92 then 2 + sqAux q t
    else if b = q then 1
    else 1 + sqAux q (c :: t)

/-- Final position of the string-literal skip starting just after the
opening quote `q`. -/
def skipQuote (bytes : List Nat) (pos : Nat) (q : Nat) : Nat :=
  pos + sqAux q (bytes.drop pos)

/-- Offset at which the block-comment loop `while pos + 1 < len` exits
(relative); `*/` advances 2 and stops, otherwise advance 1. -/
def sbcAux : List Nat → Nat
  | a :: b :: t => if a = 42 ∧ b = 47 then 2 else 1 + sbcAux (b :: t)
  | _ => 0

/-- Final position after a `/* ... */` block comment body starting at `pos`
(just after the opening `/*`), including the trailing
`if pos + 1 >= len { pos = len; }` adjustment from the source. -/
def skipBlockComment (bytes : List Nat) (pos : Nat) : Nat :=
  if bytes.length ≤ pos + sbcAux (bytes.drop pos) + 1 then bytes.length
  else pos + sbcAux (bytes.drop pos)

/-- Offset consumed by the `#[...]` attribute-block loop
`while pos < len && depth > 0`, with `[` incrementing and `]` decrementing
the bracket depth. -/
def saAux : List Nat → Nat → Nat
  | [], _ => 0
  | _ :: _, 0 => 0
  | b :: t, d + 1 =>
    1 + saAux t (if b = 91 then d + 2 else if b = 93 then d else d + 1)

/-- Final position of the attribute-block skip starting at `pos` with open
bracket depth `depth`. -/
def skipAttr (bytes : List Nat) (pos : Nat) (depth : Nat) : Nat :=
  pos + saAux (bytes.drop pos) depth

/-- The heredoc closing-label scan (`while pos < len { ... }` at
parser.rs:185-206), with an explicit fuel counter; `none` models failure to
finish within the fuel, which the progress theorem below rules out for
fuel `> len - pos`. -/
def hdScanF : Nat → List Nat → List Nat → Nat → Option Nat
  | 0, _, _, _ => none
  | fuel + 1, bytes, label, pos =>
    if pos < bytes.length then
      if bytes.getD pos 0 = 10 ∨ pos = 0 ∨ (0 < pos ∧ bytes.getD (pos - 1) 0 = 10) then
        if skipSpTab bytes pos + label.length ≤ bytes.length ∧
            (bytes.drop (skipSpTab bytes pos)).take label.length = label then
          if bytes.length ≤ skipSpTab bytes pos + label.length ∨
              bytes.getD (skipSpTab bytes pos + label.length) 0 = 59 ∨
              bytes.getD (skipSpTab bytes pos + label.length) 0 = 10 then
            some (skipToNewline bytes (skipSpTab bytes pos + label.length))
          else if skipSpTab bytes pos + label.length = pos then
            hdScanF fuel bytes label (skipSpTab bytes pos + label.length + 1)
          else hdScanF fuel bytes label (skipSpTab bytes pos + label.length)
        else if skipSpTab bytes pos = pos then hdScanF fuel bytes label (pos + 1)
        else hdScanF fuel bytes label (skipSpTab bytes pos)
      else hdScanF fuel bytes label (pos + 1)
    else some pos

/-- The whole heredoc arm of the scanner, entered at `p` = position just
after `<<<`: skip space/quote bytes, read the label, and (for a non-empty
label) skip to the end of the opener line and run the closing-label scan. -/
def heredocEnd (bytes : List Nat) (p : Nat) : Option Nat :=
  if wordAt bytes (skipHdQuotes bytes p) = [] then some (skipHdQuotes bytes p)
  else
    hdScanF (bytes.length + 1) bytes (wordAt bytes (skipHdQuotes bytes p))
      (if skipToNewline bytes (readIdentEnd bytes (skipHdQuotes bytes p)) < bytes.length
       then skipToNewline bytes (readIdentEnd bytes (skipHdQuotes bytes p)) + 1
       else skipToNewline bytes (readIdentEnd bytes (skipHdQuotes bytes p)))

/-- The `PHP_KEYWORDS` table from the source, as byte strings. -/
def phpKeywords : List (List Nat) :=
  [phpBytes "abstract", phpBytes "and", phpBytes "array", phpBytes "as",
   phpBytes "break", phpBytes "callable", phpBytes "case", phpBytes "catch",
   phpBytes "class", phpBytes "clone", phpBytes "const", phpBytes "continue",
   phpBytes "declare", phpBytes "default", phpBytes "do", phpBytes "echo",
   phpBytes "else", phpBytes "elseif", phpBytes "empty", phpBytes "enddeclare",
   phpBytes "endfor", phpBytes "endforeach", phpBytes "endif",
   phpBytes "endswitch", phpBytes "endwhile", phpBytes "enum", phpBytes "eval",
   phpBytes "exit", phpBytes "extends", phpBytes "false", phpBytes "final",
   phpBytes "finally", phpBytes "fn", phpBytes "for", phpBytes "foreach",
   phpBytes "function", phpBytes "global", phpBytes "goto", phpBytes "if",
   phpBytes "implements", phpBytes "include", phpBytes "include_once",
   phpBytes "instanceof", phpBytes "insteadof", phpBytes "interface",
   phpBytes "isset", phpBytes "list", phpBytes "match", phpBytes "namespace",
   phpBytes "new", phpBytes "null", phpBytes "or", phpBytes "print",
   phpBytes "private", phpBytes "protected", phpBytes "public",
   phpBytes "readonly", phpBytes "require", phpBytes "require_once",
   phpBytes "return", phpBytes "self", phpBytes "static", phpBytes "switch",
   phpBytes "throw", phpBytes "trait", phpBytes "true", phpBytes "try",
   phpBytes "unset", phpBytes "use", phpBytes "var", phpBytes "while",
   phpBytes "xor", phpBytes "yield"]

def kwNamespace : List Nat := phpBytes "namespace"
def kwClass : List Nat := phpBytes "class"
def kwInterface : List Nat := phpBytes "interface"
def kwTrait : List Nat := phpBytes "trait"
def kwEnum : List Nat := phpBytes "enum"
def kwNew : List Nat := phpBytes "new"
def kwAbstract : List Nat := phpBytes "abstract"
def kwFinal : List Nat := phpBytes "final"
def kwReadonly : List Nat := phpBytes "readonly"

/-- Local state of the scanner: emitted symbols, current namespace, the
brace depth at which a brace-style namespace was opened, current brace
depth, and the two one-token look-back flags. -/
structure PState where
  symbols : List (List Nat)
  ns : Option (List Nat)
  nsDepth : Option Nat
  depth : Nat
  prevNew : Bool
  afterDC : Bool
deriving Repr, DecidableEq

/-- `format!("{ns}\\{name}")` when a namespace is active, else the bare name. -/
def mkFqcn (ns : Option (List Nat)) (name : List Nat) : List Nat :=
  match ns with
  | some n => n ++ 92 :: name
  | none => name

/-- The identifier arm of the scanner's `match` (the `match word { ... }`
block): `namespace` handling, the four declaration keywords, `new`, the
three modifier keywords, and the default.  Returns the next position and
state. -/
def wordStep (bytes : List Nat) (st : PState) (pos : Nat) : Nat × PState :=
  if wordAt bytes pos = kwNamespace then
    if nsNameAt bytes (skipWs bytes (readIdentEnd bytes pos)) = [] then
      (readNsEnd bytes (skipWs bytes (readIdentEnd bytes pos)),
       { st with prevNew := false, afterDC := false })
    else
      if skipWs bytes (readNsEnd bytes (skipWs bytes (readIdentEnd bytes pos))) <
            bytes.length ∧
          bytes.getD
            (skipWs bytes (readNsEnd bytes (skipWs bytes (readIdentEnd bytes pos)))) 0
            = 123 then
        (skipWs bytes (readNsEnd bytes (skipWs bytes (readIdentEnd bytes pos))) + 1,
         { st with ns := some (nsNameAt bytes (skipWs bytes (readIdentEnd bytes pos))),
                   nsDepth := some st.depth, depth := st.depth + 1,
                   prevNew := false, afterDC := false })
      else
        (skipWs bytes (readNsEnd bytes (skipWs bytes (readIdentEnd bytes pos))),
         { st with ns := some (nsNameAt bytes (skipWs bytes (readIdentEnd bytes pos))),
                   prevNew := false, afterDC := false })
  else if wordAt bytes pos = kwClass ∨ wordAt bytes pos = kwInterface ∨
      wordAt bytes pos = kwTrait ∨ wordAt bytes pos = kwEnum then
    if st.prevNew = false ∧ st.afterDC = false then
      if wordAt bytes (skipWs bytes (readIdentEnd bytes pos)) ≠ [] ∧
          wordAt bytes (skipWs bytes (readIdentEnd bytes pos)) ∉ phpKeywords then
        (readIdentEnd bytes (skipWs bytes (readIdentEnd bytes pos)),
         { st with symbols := st.symbols ++
             [mkFqcn st.ns (wordAt bytes (skipWs bytes (readIdentEnd bytes pos)))],
                   prevNew := false, afterDC := false })
      else
        (readIdentEnd bytes (skipWs bytes (readIdentEnd bytes pos)),
         { st with prevNew := false, afterDC := false })
    else (readIdentEnd bytes pos, { st with prevNew := false, afterDC := false })
  else if wordAt bytes pos = kwNew then
    (readIdentEnd bytes pos, { st with prevNew := true, afterDC := false })
  else if wordAt bytes pos = kwAbstract ∨ wordAt bytes pos = kwFinal ∨
      wordAt bytes pos = kwReadonly then
    (readIdentEnd bytes pos, { st with afterDC := false })
  else (readIdentEnd bytes pos, { st with prevNew := false, afterDC := false })

/-- One iteration of the scanner's main `while pos < len` loop (assuming
`pos < len`), mirroring the `match b { ... }` arm order of the source.
`none` models non-termination of the heredoc inner scan (ruled out below). -/
def step (bytes : List Nat) (pos : Nat) (st : PState) : Option (Nat × PState) :=
  if bytes.getD pos 0 = 32 ∨ bytes.getD pos 0 = 9 ∨ bytes.getD pos 0 = 13 then
    some (pos + 1, st)
  else if bytes.getD pos 0 = 10 then some (pos + 1, st)
  else if bytes.getD pos 0 = 47 ∧ pos + 1 < bytes.length ∧
      bytes.getD (pos + 1) 0 = 47 then
    some (skipToNewline bytes (pos + 2), st)
  else if bytes.getD pos 0 = 47 ∧ pos + 1 < bytes.length ∧
      bytes.getD (pos + 1) 0 = 42 then
    some (skipBlockComment bytes (pos + 2), st)
  else if bytes.getD pos 0 = 35 ∧ pos + 1 < bytes.length ∧
      ¬ bytes.getD (pos + 1) 0 = 91 then
    some (skipToNewline bytes (pos + 1), st)
  else if bytes.getD pos 0 = 35 ∧ pos + 1 < bytes.length ∧
      bytes.getD (pos + 1) 0 = 91 then
    some (skipAttr bytes (pos + 2) 1, st)
  else if bytes.getD pos 0 = 39 then some (skipQuote bytes (pos + 1) 39, st)
  else if bytes.getD pos 0 = 34 then some (skipQuote bytes (pos + 1) 34, st)
  else if bytes.getD pos 0 = 60 ∧ pos + 2 < bytes.length ∧
      bytes.getD (pos + 1) 0 = 60 ∧ bytes.getD (pos + 2) 0 = 60 then
    (heredocEnd bytes (pos + 3)).map (fun r => (r, st))
  else if bytes.getD pos 0 = 123 then
    some (pos + 1, { st with depth := st.depth + 1, prevNew := false })
  else if bytes.getD pos 0 = 125 then
    if st.nsDepth = some (st.depth - 1) then
      some (pos + 1, { st with depth := st.depth - 1, ns := none, nsDepth := none,
                               prevNew := false })
    else some (pos + 1, { st with depth := st.depth - 1, prevNew := false })
  else if isIdentStart (bytes.getD pos 0) = true then some (wordStep bytes st pos)
  else if bytes.getD pos 0 = 58 ∧ pos + 1 < bytes.length ∧
      bytes.getD (pos + 1) 0 = 58 then
    some (pos + 2, { st with prevNew := false, afterDC := true })
  else if bytes.getD pos 0 = 32 ∨ bytes.getD pos 0 = 9 ∨ bytes.getD pos 0 = 10 ∨
      bytes.getD pos 0 = 13 then
    some (pos + 1, st)
  else some (pos + 1, { st with prevNew := false, afterDC := false })

/-- The scanner's main loop with an explicit fuel counter. -/
def scanF : Nat → List Nat → Nat → PState → Option (List (List Nat))
  | 0, _, _, _ => none
  | fuel + 1, bytes, pos, st =>
    if pos < bytes.length then
      match step bytes pos st with
      | some (p, st') => scanF fuel bytes p st'
      | none => none
    else some st.symbols

def initPState : PState := ⟨[], none, none, 0, false, false⟩

/-- `extract_php_symbols`: run the scanner from position 0 with fuel
`len + 1`, which the progress theorems prove sufficient. -/
def extractPhpSymbols (bytes : List Nat) : Option (List (List Nat)) :=
  scanF (bytes.length + 1) bytes 0 initPState

/-!
The compliance classifier (`mod.rs`: `is_class_valid`, `is_psr4_compliant`,
`is_psr0_compliant`) and the first-wins merge of `run`.
-/

/-- Rust `str::is_char_boundary`: true at 0, at the length, and at any
index holding a byte that is not a UTF-8 continuation byte. -/
def isCharBoundary (s : List Nat) (i : Nat) : Bool :=
  decide (i = 0 ∨ i = s.length ∨
    (i < s.length ∧ ¬ (128 ≤ s.getD i 0 ∧ s.getD i 0 < 192)))

/-- Every byte is ASCII (`< 128`); byte slicing of such strings at any
in-range index is panic-free. -/
def allAscii (l : List Nat) : Bool :=
  l.all (fun b => decide (b < 128))

/-- `str::starts_with` on byte strings. -/
def listStartsWith (pre l : List Nat) : Bool :=
  l.take pre.length == pre

/-- The trailing-separator normalisation applied to every base path:
`if d.ends_with('/') { d } else { format!("{d}/") }`. -/
def withSlash (d : List Nat) : List Nat :=
  if d.getLast? = some 47 then d else d ++ [47]

/-- `relative.strip_suffix(".php").unwrap_or(relative)`. -/
def stripPhp (l : List Nat) : List Nat :=
  if l.take (l.length - 4) ++ phpBytes ".php" = l ∧ 4 ≤ l.length then
    l.take (l.length - 4)
  else l

/-- `str::replace('\\', "/")` on byte strings (the two characters are
single ASCII bytes, so a byte map is exact). -/
def replaceBS (l : List Nat) : List Nat :=
  l.map (fun b => if b = 92 then 47 else b)

/-- `rel_start`: `base_path.len() + sep.len()` where `sep` is empty when
the base path already ends with `/`. -/
def relStartOf (base : List Nat) : Nat :=
  base.length + (if base.getLast? = some 47 then 0 else 1)

/-- `is_psr4_compliant`.  `none` models a Rust panic: the positional byte
slices `&file_path[rel_start..]` and `&class[prefix_len..]` panic when the
index is not a character boundary. -/
def isPsr4Compliant (c nsPre base file : List Nat) : Option Bool :=
  if file.length ≤ relStartOf base then some false
  else if ¬ isCharBoundary file (relStartOf base) = true then none
  else if 0 < nsPre.length ∧ nsPre.length < c.length then
    if ¬ isCharBoundary c nsPre.length = true then none
    else some (replaceBS (c.drop nsPre.length) == stripPhp (file.drop (relStartOf base)))
  else if nsPre.length = 0 then
    some (replaceBS c == stripPhp (file.drop (relStartOf base)))
  else some false

/-- The byte index of the last `\` of `c` (meaningful only when `92 ∈ c`):
`class.rfind` of the separator. -/
def lastBSIdx (c : List Nat) : Nat :=
  (c.length - 1) - (c.reverse.takeWhile (fun b => !(b == 92))).length

/-- The expected PSR-0 relative path: namespace separators become `/` in
the namespace portion (up to and including the last `\`), underscores
become `/` in the bare class-name portion. -/
def psr0Expected (c : List Nat) : List Nat :=
  if 92 ∈ c then
    replaceBS (c.take (lastBSIdx c + 1)) ++
      (c.drop (lastBSIdx c + 1)).map (fun b => if b = 95 then 47 else b)
  else c.map (fun b => if b = 95 then 47 else b)

/-- `is_psr0_compliant`.  `none` models the panic of
`&file_path[rel_start..]` at a non-boundary index (the class-name slicing
at the last separator is always at a boundary). -/
def isPsr0Compliant (c base file : List Nat) : Option Bool :=
  if file.length ≤ relStartOf base then some false
  else if ¬ isCharBoundary file (relStartOf base) = true then none
  else some (psr0Expected c == stripPhp (file.drop (relStartOf base)))

/-- One candidate step of the longest-base-path search: replace the current
best when this mapping's slash-normalised base prefixes the file path and
its base is strictly longer than the current best's
(`is_none_or(|prev| base.len() > prev_base.len())`). -/
def bmStep (file : List Nat) (best : Option (List Nat × List Nat))
    (m : List Nat × List Nat) : Option (List Nat × List Nat) :=
  if listStartsWith (withSlash m.2) file = true ∧
      (∀ p, best = some p → p.2.length < m.2.length) then some m
  else best

/-- The longest (most specific) mapping whose base path prefixes `file`
(the PSR-4 / PSR-0 selection loops of `is_class_valid`). -/
def bestMatch (maps : List (List Nat × List Nat)) (file : List Nat) :
    Option (List Nat × List Nat) :=
  maps.foldl (bmStep file) none

/-- The classmap-directory test of `is_class_valid`:
`file_path.starts_with(&prefix) || file_path == cm_dir`. -/
def inClassmapDir (d file : List Nat) : Bool :=
  listStartsWith (withSlash d) file || file == d

/-- `is_class_valid`: classmap directories first, then the longest-matching
PSR-4 mapping, then the longest-matching PSR-0 mapping, else eligible by
default.  `none` propagates a compliance-check panic. -/
def isClassValid (c file : List Nat) (psr4 psr0 : List (List Nat × List Nat))
    (cmDirs : List (List Nat)) : Option Bool :=
  if cmDirs.any (fun d => inClassmapDir d file) then some true
  else
    match bestMatch psr4 file with
    | some m => isPsr4Compliant c m.1 m.2 file
    | none =>
      match bestMatch psr0 file with
      | some m => isPsr0Compliant c m.2 file
      | none => some true

/-- One entry of the merge loop of `run`:
`classmap.entry(class).or_insert_with(|| path)` guarded by
`is_class_valid`; insertion only when the symbol is not yet present. -/
def mergeStep (psr4 psr0 : List (List Nat × List Nat)) (cmDirs : List (List Nat))
    (acc : List (List Nat × List Nat)) (e : List Nat × List Nat) :
    Option (List (List Nat × List Nat)) :=
  (isClassValid e.1 e.2 psr4 psr0 cmDirs).map
    (fun ok => if ok && (acc.lookup e.1).isNone then acc ++ [e] else acc)

/-- The merge loop of `run` over the walker's entry stream, producing the
final symbol-to-file table (modelled as the association list in insertion
order; the `BTreeMap` only reorders keys, it does not change the mapping). -/
def runMerge (psr4 psr0 : List (List Nat × List Nat)) (cmDirs : List (List Nat))
    (entries : List (List Nat × List Nat)) :
    Option (List (List Nat × List Nat)) :=
  entries.foldlM (mergeStep psr4 psr0 cmDirs) []

/-- The file a symbol would get under the claim's literal reading: the file
paired with the first occurrence of the symbol in the raw entry stream.
(Stated from the spec's words, for comparison with `runMerge`.) -/
def specFirstOccurrence (c : List Nat) (entries : List (List Nat × List Nat)) :
    Option (List Nat) :=
  (entries.find? (fun e => e.1 == c)).map (·.2)

/-- The file of the first occurrence of the symbol among the entries the
classifier approves (the amended reading). -/
def specFirstEligible (psr4 psr0 : List (List Nat × List Nat))
    (cmDirs : List (List Nat)) (c : List Nat)
    (entries : List (List Nat × List Nat)) : Option (List Nat) :=
  ((entries.filter
      (fun e => isClassValid e.1 e.2 psr4 psr0 cmDirs == some true)).find?
    (fun e => e.1 == c)).map (·.2)

/-!
The cache store (`cache.rs`).  The filesystem is a read-only oracle; the
serde JSON round trip is modelled as the identity on parsed values (its
library contract), so a persisted blob is `Option CacheData` with `none`
standing for a missing/unreadable/undecodable file.
-/

structure CachedFile where
  mtime : Nat
  symbols : List (List Nat)
deriving Repr, DecidableEq

structure CacheData where
  version : Nat
  files : List (List Nat × CachedFile)
  dirMtimes : List (List Nat × Nat)
deriving Repr, DecidableEq

def CACHE_VERSION : Nat := 2

/-- `Default::default()` for `CacheData` (`u32` default 0, empty maps). -/
def defaultCacheData : CacheData := ⟨0, [], []⟩

/-- `load_cache`: a parsed blob is kept only when its version equals the
schema version, otherwise the empty default is used. -/
def loadCache (blob : Option CacheData) : CacheData :=
  match blob with
  | some c => if c.version = CACHE_VERSION then c else defaultCacheData
  | none => defaultCacheData

/-- `save_cache`: persist the cache (serialisation modelled as identity). -/
def saveCache (c : CacheData) : Option CacheData := some c

/-- Filesystem oracle for `dirs_unchanged`: `Path::is_file`,
`Path::exists`, and `get_mtime` (which returns 0 on any error). -/
structure FSModel where
  isFile : List Nat → Bool
  pathExists : List Nat → Bool
  mtime : List Nat → Nat

/-- `dirs_unchanged`: false when the cache lacks files or directory mtimes;
false when some requested root that exists and is not a single file is
missing from the directory-mtime table; false when any cached directory
mtime differs from the filesystem or is zero; true otherwise. -/
def dirsUnchanged (fs : FSModel) (cache : CacheData) (dirs : List (List Nat)) :
    Bool :=
  if cache.dirMtimes.isEmpty || cache.files.isEmpty then false
  else if dirs.any (fun d =>
      !fs.isFile d && (fs.pathExists d && (cache.dirMtimes.lookup d).isNone)) then
    false
  else cache.dirMtimes.all (fun dm =>
    fs.mtime dm.1 == dm.2 && !(fs.mtime dm.1 == 0))

/-!
Progress lemmas: every loop of the scanner advances the byte position, so
the fuel `len + 1` given to `scanF` and `hdScanF` is always sufficient.
-/

theorem skipWs_le (bytes : List Nat) (pos : Nat) : pos ≤ skipWs bytes pos := by
  unfold skipWs; omega

theorem skipSpTab_le (bytes : List Nat) (pos : Nat) : pos ≤ skipSpTab bytes pos := by
  unfold skipSpTab; omega

theorem skipHdQuotes_le (bytes : List Nat) (pos : Nat) : pos ≤ skipHdQuotes bytes pos := by
  unfold skipHdQuotes; omega

theorem skipToNewline_le (bytes : List Nat) (pos : Nat) : pos ≤ skipToNewline bytes pos := by
  unfold skipToNewline; omega

theorem readIdentEnd_le (bytes : List Nat) (pos : Nat) : pos ≤ readIdentEnd bytes pos := by
  unfold readIdentEnd; omega

theorem readNsEnd_le (bytes : List Nat) (pos : Nat) : pos ≤ readNsEnd bytes pos := by
  unfold readNsEnd; omega

theorem skipQuote_le (bytes : List Nat) (pos q : Nat) : pos ≤ skipQuote bytes pos q := by
  unfold skipQuote; omega

theorem skipAttr_le (bytes : List Nat) (pos depth : Nat) : pos ≤ skipAttr bytes pos depth := by
  unfold skipAttr; omega

theorem skipBlockComment_ge (bytes : List Nat) (pos : Nat) (h : pos ≤ bytes.length) :
    pos ≤ skipBlockComment bytes pos := by
  unfold skipBlockComment
  split <;> omega

/-- A byte at `pos` read through a `drop` decomposition. -/
theorem getD_of_drop_cons {bytes : List Nat} {pos b : Nat} {t : List Nat}
    (h : bytes.drop pos = b :: t) : bytes.getD pos 0 = b ∧ pos < bytes.length := by
  constructor
  · have h2 := List.getElem?_drop bytes pos 0
    rw [h] at h2
    have : bytes[pos]? = some b := by simpa using h2.symm
    simp [List.getD, this]
  · by_contra hlt
    rw [List.drop_eq_nil_of_le (by omega)] at h
    exact List.noConfusion h

/-- If the byte at `pos` is an identifier byte, the identifier there is
non-empty, so reading it strictly advances the position. -/
theorem readIdentEnd_lt (bytes : List Nat) (pos : Nat) (hp : pos < bytes.length)
    (hb : isIdentChar (bytes.getD pos 0) = true) : pos < readIdentEnd bytes pos := by
  unfold readIdentEnd wordAt
  rcases hd : bytes.drop pos with _ | ⟨b, t⟩
  · have := List.drop_eq_nil_iff_le.mp hd
    omega
  · obtain ⟨hb2, -⟩ := getD_of_drop_cons hd
    rw [List.takeWhile_cons_of_pos (by rw [← hb2]; exact hb)]
    simp

theorem hdScanF_some (bytes label : List Nat) :
    ∀ fuel pos : Nat, bytes.length - pos < fuel →
      ∃ r, hdScanF fuel bytes label pos = some r ∧ pos ≤ r := by
  intro fuel
  induction fuel with
  | zero => intro pos h; omega
  | succ f ih =>
    intro pos h
    rw [hdScanF]
    by_cases hp : pos < bytes.length
    · rw [if_pos hp]
      by_cases hc : bytes.getD pos 0 = 10 ∨ pos = 0 ∨ (0 < pos ∧ bytes.getD (pos - 1) 0 = 10)
      · rw [if_pos hc]
        have h1 := skipSpTab_le bytes pos
        by_cases hm : skipSpTab bytes pos + label.length ≤ bytes.length ∧
            (bytes.drop (skipSpTab bytes pos)).take label.length = label
        · rw [if_pos hm]
          by_cases ht : bytes.length ≤ skipSpTab bytes pos + label.length ∨
              bytes.getD (skipSpTab bytes pos + label.length) 0 = 59 ∨
              bytes.getD (skipSpTab bytes pos + label.length) 0 = 10
          · rw [if_pos ht]
            have h2 := skipToNewline_le bytes (skipSpTab bytes pos + label.length)
            exact ⟨_, rfl, by omega⟩
          · rw [if_neg ht]
            by_cases he : skipSpTab bytes pos + label.length = pos
            · rw [if_pos he, he]
              obtain ⟨r, hr, hle⟩ := ih (pos + 1) (by omega)
              exact ⟨r, hr, by omega⟩
            · rw [if_neg he]
              obtain ⟨r, hr, hle⟩ := ih (skipSpTab bytes pos + label.length) (by omega)
              exact ⟨r, hr, by omega⟩
        · rw [if_neg hm]
          by_cases he : skipSpTab bytes pos = pos
          · rw [if_pos he]
            obtain ⟨r, hr, hle⟩ := ih (pos + 1) (by omega)
            exact ⟨r, hr, by omega⟩
          · rw [if_neg he]
            obtain ⟨r, hr, hle⟩ := ih (skipSpTab bytes pos) (by omega)
            exact ⟨r, hr, by omega⟩
      · rw [if_neg hc]
        obtain ⟨r, hr, hle⟩ := ih (pos + 1) (by omega)
        exact ⟨r, hr, by omega⟩
    · rw [if_neg hp]
      exact ⟨pos, rfl, le_refl _⟩

theorem heredocEnd_some (bytes : List Nat) (p : Nat) :
    ∃ r, heredocEnd bytes p = some r ∧ p ≤ r := by
  unfold heredocEnd
  by_cases h : wordAt bytes (skipHdQuotes bytes p) = []
  · rw [if_pos h]
    exact ⟨_, rfl, skipHdQuotes_le bytes p⟩
  · rw [if_neg h]
    have h1 := skipHdQuotes_le bytes p
    have h2 := readIdentEnd_le bytes (skipHdQuotes bytes p)
    have h3 := skipToNewline_le bytes (readIdentEnd bytes (skipHdQuotes bytes p))
    obtain ⟨r, hr, hle⟩ := hdScanF_some bytes (wordAt bytes (skipHdQuotes bytes p))
      (bytes.length + 1)
      (if skipToNewline bytes (readIdentEnd bytes (skipHdQuotes bytes p)) < bytes.length
       then skipToNewline bytes (readIdentEnd bytes (skipHdQuotes bytes p)) + 1
       else skipToNewline bytes (readIdentEnd bytes (skipHdQuotes bytes p)))
      (by split <;> omega)
    refine ⟨r, hr, ?_⟩
    have : skipToNewline bytes (readIdentEnd bytes (skipHdQuotes bytes p)) ≤
        (if skipToNewline bytes (readIdentEnd bytes (skipHdQuotes bytes p)) < bytes.length
         then skipToNewline bytes (readIdentEnd bytes (skipHdQuotes bytes p)) + 1
         else skipToNewline bytes (readIdentEnd bytes (skipHdQuotes bytes p))) := by
      split <;> omega
    omega

theorem isIdentStart_isIdentChar {b : Nat} (h : isIdentStart b = true) :
    isIdentChar b = true := by
  simp only [isIdentStart, decide_eq_true_eq] at h
  simp only [isIdentChar, decide_eq_true_eq]
  omega

/-- Every branch of the identifier arm ends at or after the end of the word
that was read. -/
theorem wordStep_fst_ge (bytes : List Nat) (st : PState) (pos : Nat) :
    readIdentEnd bytes pos ≤ (wordStep bytes st pos).1 := by
  have c1 := skipWs_le bytes (readIdentEnd bytes pos)
  have c2 := readNsEnd_le bytes (skipWs bytes (readIdentEnd bytes pos))
  have c3 := skipWs_le bytes (readNsEnd bytes (skipWs bytes (readIdentEnd bytes pos)))
  have c4 := readIdentEnd_le bytes (skipWs bytes (readIdentEnd bytes pos))
  unfold wordStep
  by_cases h1 : wordAt bytes pos = kwNamespace
  · rw [if_pos h1]
    by_cases h2 : nsNameAt bytes (skipWs bytes (readIdentEnd bytes pos)) = []
    · rw [if_pos h2]
      dsimp only
      omega
    · rw [if_neg h2]
      by_cases h3 : skipWs bytes (readNsEnd bytes (skipWs bytes (readIdentEnd bytes pos))) <
            bytes.length ∧
          bytes.getD
            (skipWs bytes (readNsEnd bytes (skipWs bytes (readIdentEnd bytes pos)))) 0
            = 123
      · rw [if_pos h3]; dsimp only; omega
      · rw [if_neg h3]; dsimp only; omega
  · rw [if_neg h1]
    by_cases h4 : wordAt bytes pos = kwClass ∨ wordAt bytes pos = kwInterface ∨
        wordAt bytes pos = kwTrait ∨ wordAt bytes pos = kwEnum
    · rw [if_pos h4]
      by_cases h5 : st.prevNew = false ∧ st.afterDC = false
      · rw [if_pos h5]
        by_cases h6 : wordAt bytes (skipWs bytes (readIdentEnd bytes pos)) ≠ [] ∧
            wordAt bytes (skipWs bytes (readIdentEnd bytes pos)) ∉ phpKeywords
        · rw [if_pos h6]; dsimp only; omega
        · rw [if_neg h6]; dsimp only; omega
      · rw [if_neg h5]
    · rw [if_neg h4]
      by_cases h7 : wordAt bytes pos = kwNew
      · rw [if_pos h7]
      · rw [if_neg h7]
        by_cases h8 : wordAt bytes pos = kwAbstract ∨ wordAt bytes pos = kwFinal ∨
            wordAt bytes pos = kwReadonly
        · rw [if_pos h8]
        · rw [if_neg h8]

/-- Every branch of the identifier arm moves strictly past `pos`. -/
theorem wordStep_fst_lt (bytes : List Nat) (st : PState) (pos : Nat)
    (hp : pos < bytes.length) (hb : isIdentStart (bytes.getD pos 0) = true) :
    pos < (wordStep bytes st pos).1 :=
  lt_of_lt_of_le (readIdentEnd_lt bytes pos hp (isIdentStart_isIdentChar hb))
    (wordStep_fst_ge bytes st pos)

/-- Every main-loop iteration strictly advances the position and produces a
next state (the heredoc arm included). -/
theorem stepProgress (bytes : List Nat) (pos : Nat) (st : PState)
    (hp : pos < bytes.length) :
    ∃ p' st', step bytes pos st = some (p', st') ∧ pos < p' := by
  unfold step
  by_cases h1 : bytes.getD pos 0 = 32 ∨ bytes.getD pos 0 = 9 ∨ bytes.getD pos 0 = 13
  · rw [if_pos h1]
    exact ⟨_, _, rfl, by omega⟩
  · rw [if_neg h1]
    by_cases h2 : bytes.getD pos 0 = 10
    · rw [if_pos h2]
      exact ⟨_, _, rfl, by omega⟩
    · rw [if_neg h2]
      by_cases h3 : bytes.getD pos 0 = 47 ∧ pos + 1 < bytes.length ∧ bytes.getD (pos + 1) 0 = 47
      · rw [if_pos h3]
        have := skipToNewline_le bytes (pos + 2)
        exact ⟨_, _, rfl, by omega⟩
      · rw [if_neg h3]
        by_cases h4 : bytes.getD pos 0 = 47 ∧ pos + 1 < bytes.length ∧ bytes.getD (pos + 1) 0 = 42
        · rw [if_pos h4]
          have := skipBlockComment_ge bytes (pos + 2) (by omega)
          exact ⟨_, _, rfl, by omega⟩
        · rw [if_neg h4]
          by_cases h5 : bytes.getD pos 0 = 35 ∧ pos + 1 < bytes.length ∧ ¬ bytes.getD (pos + 1) 0 = 91
          · rw [if_pos h5]
            have := skipToNewline_le bytes (pos + 1)
            exact ⟨_, _, rfl, by omega⟩
          · rw [if_neg h5]
            by_cases h6 : bytes.getD pos 0 = 35 ∧ pos + 1 < bytes.length ∧ bytes.getD (pos + 1) 0 = 91
            · rw [if_pos h6]
              have := skipAttr_le bytes (pos + 2) 1
              exact ⟨_, _, rfl, by omega⟩
            · rw [if_neg h6]
              by_cases h7 : bytes.getD pos 0 = 39
              · rw [if_pos h7]
                have := skipQuote_le bytes (pos + 1) 39
                exact ⟨_, _, rfl, by omega⟩
              · rw [if_neg h7]
                by_cases h8 : bytes.getD pos 0 = 34
                · rw [if_pos h8]
                  have := skipQuote_le bytes (pos + 1) 34
                  exact ⟨_, _, rfl, by omega⟩
                · rw [if_neg h8]
                  by_cases h9 : bytes.getD pos 0 = 60 ∧ pos + 2 < bytes.length ∧ bytes.getD (pos + 1) 0 = 60 ∧ bytes.getD (pos + 2) 0 = 60
                  · rw [if_pos h9]
                    obtain ⟨r, hr, hle⟩ := heredocEnd_some bytes (pos + 3)
                    exact ⟨r, st, by rw [hr]; rfl, by omega⟩
                  · rw [if_neg h9]
                    by_cases h10 : bytes.getD pos 0 = 123
                    · rw [if_pos h10]
                      exact ⟨_, _, rfl, by omega⟩
                    · rw [if_neg h10]
                      by_cases h11 : bytes.getD pos 0 = 125
                      · rw [if_pos h11]
                        by_cases hb : st.nsDepth = some (st.depth - 1)
                        · rw [if_pos hb]
                          exact ⟨_, _, rfl, by omega⟩
                        · rw [if_neg hb]
                          exact ⟨_, _, rfl, by omega⟩
                      · rw [if_neg h11]
                        by_cases h12 : isIdentStart (bytes.getD pos 0) = true
                        · rw [if_pos h12]
                          exact ⟨(wordStep bytes st pos).1, (wordStep bytes st pos).2, rfl,
                            wordStep_fst_lt bytes st pos hp h12⟩
                        · rw [if_neg h12]
                          by_cases h13 : bytes.getD pos 0 = 58 ∧ pos + 1 < bytes.length ∧ bytes.getD (pos + 1) 0 = 58
                          · rw [if_pos h13]
                            exact ⟨_, _, rfl, by omega⟩
                          · rw [if_neg h13]
                            by_cases h14 : bytes.getD pos 0 = 32 ∨ bytes.getD pos 0 = 9 ∨ bytes.getD pos 0 = 10 ∨ bytes.getD pos 0 = 13
                            · rw [if_pos h14]
                              exact ⟨_, _, rfl, by omega⟩
                            · rw [if_neg h14]
                              exact ⟨_, _, rfl, by omega⟩

theorem scanF_some (bytes : List Nat) :
    ∀ (fuel pos : Nat) (st : PState), bytes.length - pos < fuel →
      ∃ syms, scanF fuel bytes pos st = some syms := by
  intro fuel
  induction fuel with
  | zero => intro pos st h; omega
  | succ f ih =>
    intro pos st h
    rw [scanF]
    by_cases hp : pos < bytes.length
    · rw [if_pos hp]
      obtain ⟨p', st', hstep, hlt⟩ := stepProgress bytes pos st hp
      rw [hstep]
      exact ih p' st' (by omega)
    · rw [if_neg hp]
      exact ⟨st.symbols, rfl⟩

/-- C9: for every input text, including malformed or truncated source
(unterminated strings, comments, heredocs, attribute blocks), the symbol
extractor terminates with a (possibly empty) symbol list rather than an
error: the scanner's fuel `len + 1` always suffices because every loop —
the heredoc closing-label scan included — strictly advances the position,
and concrete truncated inputs yield `some []`. -/
theorem c9_parser_total :
    (∀ bytes : List Nat, ∃ syms, extractPhpSymbols bytes = some syms) ∧
    (∀ (bytes label : List Nat) (fuel pos : Nat), bytes.length - pos < fuel →
      ∃ r, hdScanF fuel bytes label pos = some r ∧ pos ≤ r) ∧
    extractPhpSymbols (phpBytes "<?php $s = <<<EOT\nunterminated") = some [] ∧
    extractPhpSymbols (phpBytes "\"unterminated class Foo") = some [] ∧
    extractPhpSymbols (phpBytes "/* unterminated class Foo") = some [] ∧
    extractPhpSymbols (phpBytes "#[Unclosed(") = some [] := by
  refine ⟨fun bytes => scanF_some bytes (bytes.length + 1) 0 initPState (by omega),
    fun bytes label fuel pos h => hdScanF_some bytes label fuel pos h, ?_, ?_, ?_, ?_⟩ <;>
    decide

/-- C9 witness: the totality statements applied at concrete inputs. -/
theorem c9_parser_total_witness :
    (∃ syms, extractPhpSymbols (phpBytes "class A") = some syms) ∧
    (∃ r, hdScanF 10 (phpBytes "ab") (phpBytes "EOT") 0 = some r ∧ 0 ≤ r) :=
  ⟨c9_parser_total.1 (phpBytes "class A"),
   c9_parser_total.2.1 (phpBytes "ab") (phpBytes "EOT") 10 0 (by decide)⟩

set_option maxHeartbeats 1000000 in
/-- When the current byte is a letter or `_`, the scanner's main dispatch
reaches the identifier arm. -/
theorem step_word (bytes : List Nat) (pos : Nat) (st : PState)
    (hb : isIdentStart (bytes.getD pos 0) = true) :
    step bytes pos st = some (wordStep bytes st pos) := by
  have hr : ((65 : Nat) ≤ bytes.getD pos 0 ∧ bytes.getD pos 0 ≤ 90) ∨
      (97 ≤ bytes.getD pos 0 ∧ bytes.getD pos 0 ≤ 122) ∨ bytes.getD pos 0 = 95 := by
    simpa [isIdentStart, decide_eq_true_eq] using hb
  have hg1 : ¬ (bytes.getD pos 0 = 32 ∨ bytes.getD pos 0 = 9 ∨
      bytes.getD pos 0 = 13) := by omega
  have hg2 : ¬ bytes.getD pos 0 = 10 := by omega
  have hg3 : ¬ (bytes.getD pos 0 = 47 ∧ pos + 1 < bytes.length ∧
      bytes.getD (pos + 1) 0 = 47) := by omega
  have hg4 : ¬ (bytes.getD pos 0 = 47 ∧ pos + 1 < bytes.length ∧
      bytes.getD (pos + 1) 0 = 42) := by omega
  have hg5 : ¬ (bytes.getD pos 0 = 35 ∧ pos + 1 < bytes.length ∧
      ¬ bytes.getD (pos + 1) 0 = 91) := by omega
  have hg6 : ¬ (bytes.getD pos 0 = 35 ∧ pos + 1 < bytes.length ∧
      bytes.getD (pos + 1) 0 = 91) := by omega
  have hg7 : ¬ bytes.getD pos 0 = 39 := by omega
  have hg8 : ¬ bytes.getD pos 0 = 34 := by omega
  have hg9 : ¬ (bytes.getD pos 0 = 60 ∧ pos + 2 < bytes.length ∧
      bytes.getD (pos + 1) 0 = 60 ∧ bytes.getD (pos + 2) 0 = 60) := by omega
  have hg10 : ¬ bytes.getD pos 0 = 123 := by omega
  have hg11 : ¬ bytes.getD pos 0 = 125 := by omega
  unfold step
  rw [if_neg hg1, if_neg hg2, if_neg hg3, if_neg hg4, if_neg hg5, if_neg hg6,
    if_neg hg7, if_neg hg8, if_neg hg9, if_neg hg10, if_neg hg11, if_pos hb]

/-- The first byte of a non-empty word is the head of the word. -/
theorem wordAt_head {bytes : List Nat} {pos : Nat} {w : List Nat}
    (hw : wordAt bytes pos = w) (hne : w ≠ []) :
    pos < bytes.length ∧ bytes.getD pos 0 = w.headD 0 := by
  rcases hd : bytes.drop pos with _ | ⟨b, t⟩
  · unfold wordAt at hw
    rw [hd] at hw
    simp at hw
    exact absurd hw hne
  · obtain ⟨hb2, hlt⟩ := getD_of_drop_cons hd
    unfold wordAt at hw
    rw [hd] at hw
    by_cases hc : isIdentChar b = true
    · rw [List.takeWhile_cons_of_pos hc] at hw
      refine ⟨hlt, ?_⟩
      rw [hb2, ← hw]
      rfl
    · rw [List.takeWhile_cons_of_neg (by simpa using hc)] at hw
      exact absurd hw.symm hne

/-- C3: scanning one of the four declaration keywords while a look-back
flag is set (previous significant token was `new` or `::`) emits no symbol:
the step ends right after the keyword with the state unchanged except that
both flags are cleared — in particular `symbols` is untouched. -/
theorem c3_lookback_suppresses (bytes : List Nat) (pos : Nat) (st : PState)
    (w : List Nat) (hw : wordAt bytes pos = w)
    (hkw : w = kwClass ∨ w = kwInterface ∨ w = kwTrait ∨ w = kwEnum)
    (hflag : st.prevNew = true ∨ st.afterDC = true) :
    step bytes pos st = some (readIdentEnd bytes pos,
      { st with prevNew := false, afterDC := false }) ∧
    ({ st with prevNew := false, afterDC := false } : PState).symbols = st.symbols := by
  have hne : w ≠ [] := by
    rcases hkw with h | h | h | h <;> subst h <;> decide
  obtain ⟨hp, hhead⟩ := wordAt_head hw hne
  have hb : isIdentStart (bytes.getD pos 0) = true := by
    rw [hhead]
    rcases hkw with h | h | h | h <;> subst h <;> decide
  refine ⟨?_, rfl⟩
  rw [step_word bytes pos st hb]
  unfold wordStep
  rw [hw]
  have hns : ¬ w = kwNamespace := by
    rcases hkw with h | h | h | h <;> subst h <;> decide
  have hfl : ¬ (st.prevNew = false ∧ st.afterDC = false) := by
    rcases hflag with h | h <;> simp [h]
  rw [if_neg hns, if_pos hkw, if_neg hfl]

/-- C3 witness: the suppression applied at `new class` and `::`-then-keyword
inputs, with end-to-end runs: `new class { }` and a `match` arm with
`Foo::class` emit nothing. -/
theorem c3_lookback_suppresses_witness :
    step (phpBytes "class X") 0 ⟨[], none, none, 0, true, false⟩ =
      some (readIdentEnd (phpBytes "class X") 0, ⟨[], none, none, 0, false, false⟩) ∧
    step (phpBytes "enum X") 0 ⟨[], none, none, 0, false, true⟩ =
      some (readIdentEnd (phpBytes "enum X") 0, ⟨[], none, none, 0, false, false⟩) ∧
    extractPhpSymbols (phpBytes "new class \x7b \x7d;") = some [] ∧
    extractPhpSymbols
      (phpBytes "match (true) \x7b Foo::class => 1 \x7d;") = some [] := by
  refine ⟨(c3_lookback_suppresses (phpBytes "class X") 0 ⟨[], none, none, 0, true, false⟩
      kwClass (by decide) (Or.inl rfl) (Or.inl rfl)).1, ?_, ?_, ?_⟩
  · exact (c3_lookback_suppresses (phpBytes "enum X") 0 ⟨[], none, none, 0, false, true⟩
      kwEnum (by decide) (by right; right; right; rfl) (Or.inr rfl)).1
  · decide
  · decide

/-- C4 counterexample: the claim says the modifier keywords leave *both*
look-back flags unchanged, so a declaration keyword separated from `::` by
a modifier would still be suppressed.  The code clears `after_double_colon`
on a modifier: stepping over `readonly` in a state with the `::` flag set
yields a state with the flag cleared, and end-to-end
`X::readonly class Y` emits `Y` instead of suppressing it. -/
theorem c4_modifiers_cex :
    step (phpBytes "readonly x") 0 ⟨[], none, none, 0, false, true⟩ =
      some (8, ⟨[], none, none, 0, false, false⟩) ∧
    extractPhpSymbols (phpBytes "X::readonly class Y") = some [phpBytes "Y"] := by
  constructor <;> decide

/-- C4 (amended): scanning `abstract`, `final` or `readonly` preserves the
`prev_was_new` look-back flag (so a declaration keyword separated from
`new` only by modifiers is still suppressed) but clears the
`after_double_colon` flag. -/
theorem c4_modifiers_amended (bytes : List Nat) (pos : Nat) (st : PState)
    (w : List Nat) (hw : wordAt bytes pos = w)
    (hkw : w = kwAbstract ∨ w = kwFinal ∨ w = kwReadonly) :
    step bytes pos st = some (readIdentEnd bytes pos, { st with afterDC := false }) ∧
    ({ st with afterDC := false } : PState).prevNew = st.prevNew := by
  have hne : w ≠ [] := by
    rcases hkw with h | h | h <;> subst h <;> decide
  obtain ⟨hp, hhead⟩ := wordAt_head hw hne
  have hb : isIdentStart (bytes.getD pos 0) = true := by
    rw [hhead]
    rcases hkw with h | h | h <;> subst h <;> decide
  refine ⟨?_, rfl⟩
  rw [step_word bytes pos st hb]
  unfold wordStep
  rw [hw]
  have hns : ¬ w = kwNamespace := by
    rcases hkw with h | h | h <;> subst h <;> decide
  have hdecl : ¬ (w = kwClass ∨ w = kwInterface ∨ w = kwTrait ∨ w = kwEnum) := by
    rcases hkw with h | h | h <;> subst h <;> decide
  have hnew : ¬ w = kwNew := by
    rcases hkw with h | h | h <;> subst h <;> decide
  rw [if_neg hns, if_neg hdecl, if_neg hnew, if_pos hkw]

/-- C4 amended witness: the modifier step applied at a concrete input with
the `new` flag set, plus the end-to-end suppression of
`new readonly class Y`. -/
theorem c4_modifiers_amended_witness :
    step (phpBytes "readonly x") 0 ⟨[], none, none, 0, true, true⟩ =
      some (readIdentEnd (phpBytes "readonly x") 0, ⟨[], none, none, 0, true, false⟩) ∧
    extractPhpSymbols (phpBytes "new readonly class Y") = some [] := by
  refine ⟨(c4_modifiers_amended (phpBytes "readonly x") 0 ⟨[], none, none, 0, true, true⟩
      kwReadonly (by decide) (by right; right; rfl)).1, by decide⟩

/-- The bare class name of a fully-qualified symbol: the segment after the
last namespace separator. -/
def bareName (l : List Nat) : List Nat :=
  (l.reverse.takeWhile (fun b => !(b == 92))).reverse

theorem takeWhile_middle (p : Nat → Bool) (xs : List Nat) (y : Nat) (r : List Nat)
    (hx : ∀ a ∈ xs, p a = true) (hy : p y = false) :
    (xs ++ y :: r).takeWhile p = xs := by
  induction xs with
  | nil => simp [List.takeWhile_cons_of_neg, hy]
  | cons a t ih =>
    simp only [List.cons_append, List.takeWhile_cons_of_pos (hx a (by simp))]
    rw [ih (fun a ha => hx a (by simp [ha]))]

/-- Prepending a namespace does not change the bare name of a separator-free
class name. -/
theorem bareName_mkFqcn (ns : Option (List Nat)) (name : List Nat)
    (h : ∀ b ∈ name, b ≠ 92) : bareName (mkFqcn ns name) = name := by
  have hname : ∀ a ∈ name.reverse, (fun b => !(b == 92)) a = true := by
    intro a ha
    simp only [List.mem_reverse] at ha
    simp [h a ha]
  cases ns with
  | none =>
    unfold mkFqcn bareName
    rw [List.takeWhile_eq_self_iff.mpr hname, List.reverse_reverse]
  | some n =>
    unfold mkFqcn bareName
    have hrev : (n ++ 92 :: name).reverse = name.reverse ++ 92 :: n.reverse := by
      simp [List.reverse_append]
    rw [hrev, takeWhile_middle _ _ _ _ hname (by simp), List.reverse_reverse]

/-- The identifier arm never emits a symbol whose bare name is a reserved
keyword. -/
theorem wordStep_inv (bytes : List Nat) (st : PState) (pos : Nat)
    (hinv : ∀ s ∈ st.symbols, bareName s ∉ phpKeywords) :
    ∀ s ∈ (wordStep bytes st pos).2.symbols, bareName s ∉ phpKeywords := by
  unfold wordStep
  by_cases h1 : wordAt bytes pos = kwNamespace
  · rw [if_pos h1]
    by_cases h2 : nsNameAt bytes (skipWs bytes (readIdentEnd bytes pos)) = []
    · rw [if_pos h2]
      exact hinv
    · rw [if_neg h2]
      by_cases h3 : skipWs bytes (readNsEnd bytes (skipWs bytes (readIdentEnd bytes pos))) <
            bytes.length ∧
          bytes.getD
            (skipWs bytes (readNsEnd bytes (skipWs bytes (readIdentEnd bytes pos)))) 0
            = 123
      · rw [if_pos h3]
        exact hinv
      · rw [if_neg h3]
        exact hinv
  · rw [if_neg h1]
    by_cases h4 : wordAt bytes pos = kwClass ∨ wordAt bytes pos = kwInterface ∨
        wordAt bytes pos = kwTrait ∨ wordAt bytes pos = kwEnum
    · rw [if_pos h4]
      by_cases h5 : st.prevNew = false ∧ st.afterDC = false
      · rw [if_pos h5]
        by_cases h6 : wordAt bytes (skipWs bytes (readIdentEnd bytes pos)) ≠ [] ∧
            wordAt bytes (skipWs bytes (readIdentEnd bytes pos)) ∉ phpKeywords
        · rw [if_pos h6]
          intro s hs
          dsimp only at hs
          rcases List.mem_append.mp hs with hs | hs
          · exact hinv s hs
          · have hseq := List.mem_singleton.mp hs
            subst hseq
            have hbs : ∀ b ∈ wordAt bytes (skipWs bytes (readIdentEnd bytes pos)),
                b ≠ 92 := by
              intro b hb
              have hc := List.mem_takeWhile_imp (by simpa [wordAt] using hb)
              simp only [isIdentChar, decide_eq_true_eq] at hc
              omega
            rw [bareName_mkFqcn st.ns _ hbs]
            exact h6.2
        · rw [if_neg h6]
          exact hinv
      · rw [if_neg h5]
        exact hinv
    · rw [if_neg h4]
      by_cases h7 : wordAt bytes pos = kwNew
      · rw [if_pos h7]
        exact hinv
      · rw [if_neg h7]
        by_cases h8 : wordAt bytes pos = kwAbstract ∨ wordAt bytes pos = kwFinal ∨
            wordAt bytes pos = kwReadonly
        · rw [if_pos h8]
          exact hinv
        · rw [if_neg h8]
          exact hinv

/-- One scanner step only ever appends a non-keyword-named symbol. -/
theorem step_inv (bytes : List Nat) (pos : Nat) (st : PState) (p' : Nat)
    (st' : PState) (h : step bytes pos st = some (p', st'))
    (hinv : ∀ s ∈ st.symbols, bareName s ∉ phpKeywords) :
    ∀ s ∈ st'.symbols, bareName s ∉ phpKeywords := by
  unfold step at h
  by_cases h1 : bytes.getD pos 0 = 32 ∨ bytes.getD pos 0 = 9 ∨ bytes.getD pos 0 = 13
  · rw [if_pos h1] at h
    simp only [Option.some.injEq, Prod.mk.injEq] at h
    obtain ⟨-, h0⟩ := h
    subst h0
    exact hinv
  · rw [if_neg h1] at h
    by_cases h2 : bytes.getD pos 0 = 10
    · rw [if_pos h2] at h
      simp only [Option.some.injEq, Prod.mk.injEq] at h
      obtain ⟨-, h0⟩ := h
      subst h0
      exact hinv
    · rw [if_neg h2] at h
      by_cases h3 : bytes.getD pos 0 = 47 ∧ pos + 1 < bytes.length ∧ bytes.getD (pos + 1) 0 = 47
      · rw [if_pos h3] at h
        simp only [Option.some.injEq, Prod.mk.injEq] at h
        obtain ⟨-, h0⟩ := h
        subst h0
        exact hinv
      · rw [if_neg h3] at h
        by_cases h4 : bytes.getD pos 0 = 47 ∧ pos + 1 < bytes.length ∧ bytes.getD (pos + 1) 0 = 42
        · rw [if_pos h4] at h
          simp only [Option.some.injEq, Prod.mk.injEq] at h
          obtain ⟨-, h0⟩ := h
          subst h0
          exact hinv
        · rw [if_neg h4] at h
          by_cases h5 : bytes.getD pos 0 = 35 ∧ pos + 1 < bytes.length ∧ ¬ bytes.getD (pos + 1) 0 = 91
          · rw [if_pos h5] at h
            simp only [Option.some.injEq, Prod.mk.injEq] at h
            obtain ⟨-, h0⟩ := h
            subst h0
            exact hinv
          · rw [if_neg h5] at h
            by_cases h6 : bytes.getD pos 0 = 35 ∧ pos + 1 < bytes.length ∧ bytes.getD (pos + 1) 0 = 91
            · rw [if_pos h6] at h
              simp only [Option.some.injEq, Prod.mk.injEq] at h
              obtain ⟨-, h0⟩ := h
              subst h0
              exact hinv
            · rw [if_neg h6] at h
              by_cases h7 : bytes.getD pos 0 = 39
              · rw [if_pos h7] at h
                simp only [Option.some.injEq, Prod.mk.injEq] at h
                obtain ⟨-, h0⟩ := h
                subst h0
                exact hinv
              · rw [if_neg h7] at h
                by_cases h8 : bytes.getD pos 0 = 34
                · rw [if_pos h8] at h
                  simp only [Option.some.injEq, Prod.mk.injEq] at h
                  obtain ⟨-, h0⟩ := h
                  subst h0
                  exact hinv
                · rw [if_neg h8] at h
                  by_cases h9 : bytes.getD pos 0 = 60 ∧ pos + 2 < bytes.length ∧ bytes.getD (pos + 1) 0 = 60 ∧ bytes.getD (pos + 2) 0 = 60
                  · rw [if_pos h9] at h
                    obtain ⟨r, hr0, hpair⟩ := Option.map_eq_some'.mp h
                    simp only [Prod.mk.injEq] at hpair
                    obtain ⟨-, h0⟩ := hpair
                    subst h0
                    exact hinv
                  · rw [if_neg h9] at h
                    by_cases h10 : bytes.getD pos 0 = 123
                    · rw [if_pos h10] at h
                      simp only [Option.some.injEq, Prod.mk.injEq] at h
                      obtain ⟨-, h0⟩ := h
                      subst h0
                      exact hinv
                    · rw [if_neg h10] at h
                      by_cases h11 : bytes.getD pos 0 = 125
                      · rw [if_pos h11] at h
                        by_cases hbr : st.nsDepth = some (st.depth - 1)
                        · rw [if_pos hbr] at h
                          simp only [Option.some.injEq, Prod.mk.injEq] at h
                          obtain ⟨-, h0⟩ := h
                          subst h0
                          exact hinv
                        · rw [if_neg hbr] at h
                          simp only [Option.some.injEq, Prod.mk.injEq] at h
                          obtain ⟨-, h0⟩ := h
                          subst h0
                          exact hinv
                      · rw [if_neg h11] at h
                        by_cases h12 : isIdentStart (bytes.getD pos 0) = true
                        · rw [if_pos h12] at h
                          simp only [Option.some.injEq] at h
                          have h0 : st' = (wordStep bytes st pos).2 := by rw [h]
                          rw [h0]
                          exact wordStep_inv bytes st pos hinv
                        · rw [if_neg h12] at h
                          by_cases h13 : bytes.getD pos 0 = 58 ∧ pos + 1 < bytes.length ∧ bytes.getD (pos + 1) 0 = 58
                          · rw [if_pos h13] at h
                            simp only [Option.some.injEq, Prod.mk.injEq] at h
                            obtain ⟨-, h0⟩ := h
                            subst h0
                            exact hinv
                          · rw [if_neg h13] at h
                            by_cases h14 : bytes.getD pos 0 = 32 ∨ bytes.getD pos 0 = 9 ∨ bytes.getD pos 0 = 10 ∨ bytes.getD pos 0 = 13
                            · rw [if_pos h14] at h
                              simp only [Option.some.injEq, Prod.mk.injEq] at h
                              obtain ⟨-, h0⟩ := h
                              subst h0
                              exact hinv
                            · rw [if_neg h14] at h
                              simp only [Option.some.injEq, Prod.mk.injEq] at h
                              obtain ⟨-, h0⟩ := h
                              subst h0
                              exact hinv

/-- The keyword-freeness invariant carried through the whole scan. -/
theorem scanF_kwFree (bytes : List Nat) :
    ∀ (fuel pos : Nat) (st : PState),
      (∀ s ∈ st.symbols, bareName s ∉ phpKeywords) →
      ∀ syms, scanF fuel bytes pos st = some syms →
      ∀ s ∈ syms, bareName s ∉ phpKeywords := by
  intro fuel
  induction fuel with
  | zero =>
    intro pos st hinv syms h
    exact absurd h (by simp [scanF])
  | succ f ih =>
    intro pos st hinv syms h
    rw [scanF] at h
    by_cases hp : pos < bytes.length
    · rw [if_pos hp] at h
      rcases hstep : step bytes pos st with _ | ⟨p', st'⟩
      · rw [hstep] at h
        exact absurd h (by simp)
      · rw [hstep] at h
        exact ih p' st' (step_inv bytes pos st p' st' hstep hinv) syms h
    · rw [if_neg hp] at h
      have h0 : st.symbols = syms := by simpa using h
      intro s hs
      exact hinv s (h0 ▸ hs)

/-- C5: on a declaration keyword with neither look-back flag set, the
scanner skips whitespace, reads the following identifier, and emits
`namespace ++ separator ++ identifier` (or the bare identifier with no
active namespace) exactly when the identifier is non-empty and not a
reserved keyword; consequently no emitted symbol's bare name is ever a
reserved keyword. -/
theorem c5_keyword_emission :
    (∀ (bytes : List Nat) (pos : Nat) (st : PState) (w : List Nat),
      wordAt bytes pos = w →
      (w = kwClass ∨ w = kwInterface ∨ w = kwTrait ∨ w = kwEnum) →
      st.prevNew = false → st.afterDC = false →
      step bytes pos st =
        some (readIdentEnd bytes (skipWs bytes (readIdentEnd bytes pos)),
          { st with
            symbols := st.symbols ++
              (if wordAt bytes (skipWs bytes (readIdentEnd bytes pos)) ≠ [] ∧
                  wordAt bytes (skipWs bytes (readIdentEnd bytes pos)) ∉ phpKeywords
               then [mkFqcn st.ns (wordAt bytes (skipWs bytes (readIdentEnd bytes pos)))]
               else [])
            prevNew := false
            afterDC := false })) ∧
    (∀ (bytes : List Nat) (syms : List (List Nat)),
      extractPhpSymbols bytes = some syms → ∀ s ∈ syms, bareName s ∉ phpKeywords) := by
  constructor
  · intro bytes pos st w hw hkw hnew hdc
    have hne : w ≠ [] := by
      rcases hkw with h | h | h | h <;> subst h <;> decide
    obtain ⟨hp, hhead⟩ := wordAt_head hw hne
    have hb : isIdentStart (bytes.getD pos 0) = true := by
      rw [hhead]
      rcases hkw with h | h | h | h <;> subst h <;> decide
    rw [step_word bytes pos st hb]
    unfold wordStep
    rw [hw]
    have hns : ¬ w = kwNamespace := by
      rcases hkw with h | h | h | h <;> subst h <;> decide
    rw [if_neg hns, if_pos hkw, if_pos ⟨hnew, hdc⟩]
    by_cases hname : wordAt bytes (skipWs bytes (readIdentEnd bytes pos)) ≠ [] ∧
        wordAt bytes (skipWs bytes (readIdentEnd bytes pos)) ∉ phpKeywords
    · rw [if_pos hname, if_pos hname]
    · rw [if_neg hname, if_neg hname, List.append_nil]
  · intro bytes syms h
    exact scanF_kwFree bytes (bytes.length + 1) 0 initPState
      (by intro s hs; exact absurd hs (List.not_mem_nil s)) syms h

/-- C5 witness: the emission step applied at `class Foo` (a symbol is
emitted), and keyword-freeness of a concretely extracted symbol list. -/
theorem c5_keyword_emission_witness :
    (∃ r, step (phpBytes "class Foo") 0 ⟨[], none, none, 0, false, false⟩ = some r) ∧
    (∀ s ∈ [phpBytes "Foo"], bareName s ∉ phpKeywords) :=
  ⟨⟨_, c5_keyword_emission.1 (phpBytes "class Foo") 0 ⟨[], none, none, 0, false, false⟩
      kwClass (by decide) (Or.inl rfl) rfl rfl⟩,
   c5_keyword_emission.2 (phpBytes "class Foo") [phpBytes "Foo"] (by decide)⟩

/-!
Claims about `is_psr4_compliant` (`mod.rs`): totality on ASCII input, the
panic at a multi-byte boundary, and the positional-strip characterisation.
-/

theorem allAscii_byte {l : List Nat} (h : allAscii l = true) {i : Nat}
    (hi : i < l.length) : l.getD i 0 < 128 := by
  have h2 : l.getD i 0 = l[i] := by
    simp [List.getD, List.getElem?_eq_getElem hi]
  rw [h2]
  simpa using List.all_eq_true.mp h l[i] (List.getElem_mem hi)

theorem allAscii_boundary {l : List Nat} (h : allAscii l = true) {i : Nat}
    (hi : i < l.length) : isCharBoundary l i = true := by
  have hb := allAscii_byte h hi
  simp only [isCharBoundary, decide_eq_true_eq]
  right; right
  exact ⟨hi, by omega⟩

/-- C10 counterexample: `is_psr4_compliant` is not total on arbitrary UTF-8
input.  The class `[195, 169, 88]` (the UTF-8 bytes of a two-byte character
followed by `X`) with the one-byte prefix `[65]` passes the length guard,
and `&class[1..]` slices in the middle of the multi-byte character — a
panic, modelled as `none`. -/
theorem c10_panic_cex :
    isPsr4Compliant [195, 169, 88] [65] (phpBytes "/b") (phpBytes "/b/X.php") = none := by
  decide

/-- C10 (amended): the compliance check never panics when the class name
and file path are ASCII — every byte index it slices at is then a character
boundary — but it can panic on multi-byte class names (see the
counterexample). -/
theorem c10_ascii_total (c nsPre base file : List Nat)
    (hc : allAscii c = true) (hf : allAscii file = true) :
    ∃ b, isPsr4Compliant c nsPre base file = some b := by
  unfold isPsr4Compliant
  by_cases h1 : file.length ≤ relStartOf base
  · rw [if_pos h1]
    exact ⟨false, rfl⟩
  · rw [if_neg h1]
    have hb1 : isCharBoundary file (relStartOf base) = true :=
      allAscii_boundary hf (by omega)
    rw [if_neg (by rw [hb1]; simp)]
    by_cases h2 : 0 < nsPre.length ∧ nsPre.length < c.length
    · rw [if_pos h2]
      have hb2 : isCharBoundary c nsPre.length = true := allAscii_boundary hc h2.2
      rw [if_neg (by rw [hb2]; simp)]
      exact ⟨_, rfl⟩
    · rw [if_neg h2]
      by_cases h3 : nsPre.length = 0
      · rw [if_pos h3]
        exact ⟨_, rfl⟩
      · rw [if_neg h3]
        exact ⟨false, rfl⟩

/-- C10 witness: totality applied at a concrete ASCII input. -/
theorem c10_ascii_total_witness :
    ∃ b, isPsr4Compliant (phpBytes "App\\User") (phpBytes "App\\") (phpBytes "/src")
      (phpBytes "/src/User.php") = some b :=
  c10_ascii_total (phpBytes "App\\User") (phpBytes "App\\") (phpBytes "/src")
    (phpBytes "/src/User.php") (by decide) (by decide)

/-- The slash-normalised base is exactly `rel_start` bytes long. -/
theorem relStartOf_withSlash (base : List Nat) :
    relStartOf base = (withSlash base).length := by
  unfold relStartOf withSlash
  split <;> simp

/-- C1 counterexample: the claim's "exactly when" fails at the corner where
the class is not longer than the prefix.  With class `Foo`, prefix `App\`
(4 bytes), base `/src` and file `/src/.php`, the relative path `.php`
strips to the empty string and equals the positionally stripped class
(also empty), yet the function returns `some false` because it requires
the class to be strictly longer than a non-empty prefix. -/
theorem c1_positional_cex :
    isPsr4Compliant (phpBytes "Foo") (phpBytes "App\\") (phpBytes "/src")
        (phpBytes "/src/.php") = some false ∧
    stripPhp ((phpBytes "/src/.php").drop (relStartOf (phpBytes "/src"))) =
      replaceBS ((phpBytes "Foo").drop (phpBytes "App\\").length) := by
  constructor <;> decide

/-- C1 (amended): for an ASCII class and a file lying under the base
directory with non-empty relative part, prefix-style compliance holds
exactly when the prefix is empty or the class is strictly longer than the
prefix, and the class minus its first `N` bytes (`N` = prefix length, a
positional count) with `\` replaced by `/` equals the relative path with
`.php` stripped. -/
theorem c1_psr4_positional (c nsPre base rest : List Nat)
    (hc : allAscii c = true) (hrest : allAscii rest = true) (hne : rest ≠ []) :
    ∃ b, isPsr4Compliant c nsPre base (withSlash base ++ rest) = some b ∧
      (b = true ↔ ((nsPre = [] ∨ nsPre.length < c.length) ∧
        replaceBS (c.drop nsPre.length) = stripPhp rest)) := by
  have hrlen : 0 < rest.length := List.length_pos.mpr hne
  have hlen : ¬ ((withSlash base ++ rest).length ≤ relStartOf base) := by
    rw [List.length_append, relStartOf_withSlash]
    omega
  have hdrop : (withSlash base ++ rest).drop (relStartOf base) = rest := by
    rw [relStartOf_withSlash]
    exact List.drop_left _ _
  have hbyte : (withSlash base ++ rest).getD (relStartOf base) 0 = rest.getD 0 0 := by
    have h1 : (withSlash base ++ rest)[relStartOf base]? = rest[0]? := by
      rw [relStartOf_withSlash]
      rw [List.getElem?_append_right (le_refl _)]
      simp
    rcases rest with _ | ⟨r0, rs⟩
    · exact absurd rfl hne
    · simp only [List.getElem?_cons_zero] at h1
      simp [List.getD, h1]
  have hb1 : isCharBoundary (withSlash base ++ rest) (relStartOf base) = true := by
    simp only [isCharBoundary, decide_eq_true_eq]
    right; right
    refine ⟨by rw [List.length_append, relStartOf_withSlash]; omega, ?_⟩
    rw [hbyte]
    have : rest.getD 0 0 < 128 := allAscii_byte hrest (by omega)
    omega
  unfold isPsr4Compliant
  rw [if_neg hlen, if_neg (by rw [hb1]; simp), hdrop]
  by_cases h2 : 0 < nsPre.length ∧ nsPre.length < c.length
  · rw [if_pos h2]
    have hb2 : isCharBoundary c nsPre.length = true := allAscii_boundary hc h2.2
    rw [if_neg (by rw [hb2]; simp)]
    refine ⟨_, rfl, ?_⟩
    constructor
    · intro hb
      exact ⟨Or.inr h2.2, by simpa using hb⟩
    · rintro ⟨-, hb⟩
      simpa using hb
  · rw [if_neg h2]
    by_cases h3 : nsPre.length = 0
    · rw [if_pos h3]
      refine ⟨_, rfl, ?_⟩
      have hnil : nsPre = [] := List.length_eq_zero.mp h3
      constructor
      · intro hb
        refine ⟨Or.inl hnil, ?_⟩
        rw [h3, List.drop_zero]
        simpa using hb
      · rintro ⟨-, hb⟩
        rw [h3, List.drop_zero] at hb
        simpa using hb
    · rw [if_neg h3]
      refine ⟨false, rfl, ?_⟩
      constructor
      · intro hb
        exact absurd hb (by simp)
      · rintro ⟨hor, -⟩
        exfalso
        rcases hor with hnil | hlt
        · exact h3 (by rw [hnil]; rfl)
        · exact h2 ⟨by omega, hlt⟩

/-- C1 witness: the characterisation applied at a compliant concrete
input. -/
theorem c1_psr4_positional_witness :
    ∃ b, isPsr4Compliant (phpBytes "App\\Models\\User") (phpBytes "App\\")
        (phpBytes "/src") (withSlash (phpBytes "/src") ++ phpBytes "Models/User.php") =
        some b ∧
      (b = true ↔ ((phpBytes "App\\" = [] ∨
          (phpBytes "App\\").length < (phpBytes "App\\Models\\User").length) ∧
        replaceBS ((phpBytes "App\\Models\\User").drop (phpBytes "App\\").length) =
          stripPhp (phpBytes "Models/User.php"))) :=
  c1_psr4_positional (phpBytes "App\\Models\\User") (phpBytes "App\\")
    (phpBytes "/src") (phpBytes "Models/User.php") (by decide) (by decide) (by decide)

/-!
The longest-base-path selection of `is_class_valid` and the dispatch order
of the classifier.
-/

/-- Invariant of the longest-match fold: a produced mapping matches the
file, dominates every matching mapping of the list and the accumulator,
and comes from the list or the accumulator; a `none` result means nothing
matched and the accumulator was empty. -/
theorem bestMatch_spec (file : List Nat) :
    ∀ (maps : List (List Nat × List Nat)) (acc : Option (List Nat × List Nat)),
      (∀ p, acc = some p → listStartsWith (withSlash p.2) file = true) →
      (∀ q, List.foldl (bmStep file) acc maps = some q →
        listStartsWith (withSlash q.2) file = true ∧
        (∀ m ∈ maps, listStartsWith (withSlash m.2) file = true →
          m.2.length ≤ q.2.length) ∧
        (∀ p, acc = some p → p.2.length ≤ q.2.length) ∧
        (q ∈ maps ∨ acc = some q)) ∧
      (List.foldl (bmStep file) acc maps = none →
        acc = none ∧ ∀ m ∈ maps, listStartsWith (withSlash m.2) file = false) := by
  intro maps
  induction maps with
  | nil =>
    intro acc hacc
    constructor
    · intro q hq
      simp only [List.foldl_nil] at hq
      refine ⟨hacc q hq, by simp, ?_, Or.inr hq⟩
      intro p hp
      rw [hq] at hp
      injection hp with h
      rw [h]
    · intro hq
      simp only [List.foldl_nil] at hq
      exact ⟨hq, by simp⟩
  | cons m ms ih =>
    intro acc hacc
    simp only [List.foldl_cons]
    by_cases hcond : listStartsWith (withSlash m.2) file = true ∧
        (∀ p, acc = some p → p.2.length < m.2.length)
    · have hstep : bmStep file acc m = some m := by
        unfold bmStep
        rw [if_pos hcond]
      rw [hstep]
      obtain ⟨ihs, ihn⟩ := ih (some m)
        (by intro p hp; injection hp with h; rw [← h]; exact hcond.1)
      constructor
      · intro q hq
        obtain ⟨hsw, hmax, hpb, hmem⟩ := ihs q hq
        refine ⟨hsw, ?_, ?_, ?_⟩
        · intro m' hm' hsw'
          rcases List.mem_cons.mp hm' with rfl | hm'
          · exact hpb m' rfl
          · exact hmax m' hm' hsw'
        · intro p hp
          have h1 := hcond.2 p hp
          have h2 := hpb m rfl
          omega
        · rcases hmem with h | h
          · exact Or.inl (List.mem_cons_of_mem m h)
          · injection h with h
            exact Or.inl (h ▸ List.mem_cons_self m ms)
      · intro hq
        obtain ⟨hnone, -⟩ := ihn hq
        exact absurd hnone (by simp)
    · have hstep : bmStep file acc m = acc := by
        unfold bmStep
        rw [if_neg hcond]
      rw [hstep]
      obtain ⟨ihs, ihn⟩ := ih acc hacc
      constructor
      · intro q hq
        obtain ⟨hsw, hmax, hpb, hmem⟩ := ihs q hq
        refine ⟨hsw, ?_, hpb, ?_⟩
        · intro m' hm' hsw'
          rcases List.mem_cons.mp hm' with rfl | hm'
          · have hb : ¬ ∀ p, acc = some p → p.2.length < m'.2.length :=
              fun hb => hcond ⟨hsw', hb⟩
            rcases hacc2 : acc with _ | p
            · exact absurd (fun p hp => absurd (hacc2 ▸ hp) (by simp)) hb
            · have hle := hpb p hacc2
              have hlt : ¬ p.2.length < m'.2.length := by
                intro hlt
                apply hb
                intro p' hp'
                rw [hacc2] at hp'
                injection hp' with h
                rw [← h]
                exact hlt
              omega
          · exact hmax m' hm' hsw'
        · rcases hmem with h | h
          · exact Or.inl (List.mem_cons_of_mem m h)
          · exact Or.inr h
      · intro hq
        obtain ⟨hnone, hall⟩ := ihn hq
        refine ⟨hnone, ?_⟩
        intro m' hm'
        rcases List.mem_cons.mp hm' with rfl | hm'
        · cases hB : listStartsWith (withSlash m'.2) file
          · rfl
          · exact absurd ⟨hB, fun p hp => by rw [hnone] at hp; cases hp⟩ hcond
        · exact hall m' hm'

/-- The longest-match search, characterised. -/
theorem bestMatch_some (maps : List (List Nat × List Nat)) (file : List Nat)
    (q : List Nat × List Nat) (h : bestMatch maps file = some q) :
    q ∈ maps ∧ listStartsWith (withSlash q.2) file = true ∧
      ∀ m ∈ maps, listStartsWith (withSlash m.2) file = true →
        m.2.length ≤ q.2.length := by
  obtain ⟨hsw, hmax, -, hmem⟩ :=
    ((bestMatch_spec file maps none (by intro p hp; cases hp)).1 q h)
  rcases hmem with hmem | hmem
  · exact ⟨hmem, hsw, hmax⟩
  · cases hmem

/-- A `none` result means no mapping's base prefixes the file. -/
theorem bestMatch_none (maps : List (List Nat × List Nat)) (file : List Nat)
    (h : bestMatch maps file = none) :
    ∀ m ∈ maps, listStartsWith (withSlash m.2) file = false :=
  ((bestMatch_spec file maps none (by intro p hp; cases hp)).2 h).2

/-- C2: the classifier decides in the fixed order classmap directory →
longest matching PSR-4 mapping → longest matching PSR-0 mapping → eligible
by default, where "longest" means: the returned mapping's slash-normalised
base prefixes the file path and every other matching mapping has a base no
longer. -/
theorem c2_classifier_order :
    (∀ (c file : List Nat) (psr4 psr0 : List (List Nat × List Nat))
        (cmDirs : List (List Nat)),
      (cmDirs.any (fun d => inClassmapDir d file)) = true →
      isClassValid c file psr4 psr0 cmDirs = some true) ∧
    (∀ (c file : List Nat) (psr4 psr0 : List (List Nat × List Nat))
        (cmDirs : List (List Nat)) (m : List Nat × List Nat),
      (cmDirs.any (fun d => inClassmapDir d file)) = false →
      bestMatch psr4 file = some m →
      isClassValid c file psr4 psr0 cmDirs = isPsr4Compliant c m.1 m.2 file) ∧
    (∀ (c file : List Nat) (psr4 psr0 : List (List Nat × List Nat))
        (cmDirs : List (List Nat)) (m : List Nat × List Nat),
      (cmDirs.any (fun d => inClassmapDir d file)) = false →
      bestMatch psr4 file = none → bestMatch psr0 file = some m →
      isClassValid c file psr4 psr0 cmDirs = isPsr0Compliant c m.2 file) ∧
    (∀ (c file : List Nat) (psr4 psr0 : List (List Nat × List Nat))
        (cmDirs : List (List Nat)),
      (cmDirs.any (fun d => inClassmapDir d file)) = false →
      bestMatch psr4 file = none → bestMatch psr0 file = none →
      isClassValid c file psr4 psr0 cmDirs = some true) ∧
    (∀ (maps : List (List Nat × List Nat)) (file : List Nat)
        (m : List Nat × List Nat),
      bestMatch maps file = some m →
      m ∈ maps ∧ listStartsWith (withSlash m.2) file = true ∧
        ∀ m' ∈ maps, listStartsWith (withSlash m'.2) file = true →
          m'.2.length ≤ m.2.length) ∧
    (∀ (maps : List (List Nat × List Nat)) (file : List Nat),
      bestMatch maps file = none →
      ∀ m ∈ maps, listStartsWith (withSlash m.2) file = false) := by
  refine ⟨?_, ?_, ?_, ?_, bestMatch_some, bestMatch_none⟩
  · intro c file psr4 psr0 cmDirs h
    unfold isClassValid
    rw [if_pos h]
  · intro c file psr4 psr0 cmDirs m h hbm
    unfold isClassValid
    rw [if_neg (by rw [h]; simp), hbm]
  · intro c file psr4 psr0 cmDirs m h hbm4 hbm0
    unfold isClassValid
    rw [if_neg (by rw [h]; simp), hbm4, hbm0]
  · intro c file psr4 psr0 cmDirs h hbm4 hbm0
    unfold isClassValid
    rw [if_neg (by rw [h]; simp), hbm4, hbm0]

/-- C2 witness: the dispatch applied at concrete inputs — a classmap
directory wins regardless of the class, and the longest of two matching
PSR-4 bases is selected. -/
theorem c2_classifier_order_witness :
    isClassValid (phpBytes "Weird\\Name") (phpBytes "/cm/X.php") [] []
      [phpBytes "/cm"] = some true ∧
    ((phpBytes "A\\B\\", phpBytes "/src/sub") ∈
        [(phpBytes "A\\", phpBytes "/src"), (phpBytes "A\\B\\", phpBytes "/src/sub")] ∧
      listStartsWith (withSlash (phpBytes "/src/sub")) (phpBytes "/src/sub/C.php") = true ∧
      ∀ m' ∈ [(phpBytes "A\\", phpBytes "/src"), (phpBytes "A\\B\\", phpBytes "/src/sub")],
        listStartsWith (withSlash m'.2) (phpBytes "/src/sub/C.php") = true →
        m'.2.length ≤ (phpBytes "/src/sub").length) :=
  ⟨c2_classifier_order.1 (phpBytes "Weird\\Name") (phpBytes "/cm/X.php") [] []
      [phpBytes "/cm"] (by decide),
   c2_classifier_order.2.2.2.2.1
     [(phpBytes "A\\", phpBytes "/src"), (phpBytes "A\\B\\", phpBytes "/src/sub")]
     (phpBytes "/src/sub/C.php") (phpBytes "A\\B\\", phpBytes "/src/sub") (by decide)⟩

/-!
The first-wins merge of `run` and its characterisation.
-/

theorem lookup_singleton (c x : List Nat) (y : List Nat) :
    List.lookup c [(x, y)] = if (c == x) = true then some y else none := by
  cases h : (c == x) <;> simp [List.lookup, h]

theorem lookup_append (c : List Nat) (l1 l2 : List (List Nat × List Nat)) :
    List.lookup c (l1 ++ l2) = (List.lookup c l1).or (List.lookup c l2) := by
  induction l1 with
  | nil => simp [List.lookup, Option.none_or]
  | cons a t ih =>
    rcases a with ⟨x, y⟩
    cases hcx : (c == x) <;> simp [List.lookup, hcx, ih]

/-- The merge fold, characterised against the accumulator: a symbol's file
is its binding in the accumulator if present, else the file of its first
classifier-approved occurrence in the remaining entries. -/
theorem runMerge_go (psr4 psr0 : List (List Nat × List Nat))
    (cmDirs : List (List Nat)) (c : List Nat) :
    ∀ (entries acc m : List (List Nat × List Nat)),
      List.foldlM (mergeStep psr4 psr0 cmDirs) acc entries = some m →
      List.lookup c m =
        (List.lookup c acc).or (specFirstEligible psr4 psr0 cmDirs c entries) := by
  intro entries
  induction entries with
  | nil =>
    intro acc m h
    rw [List.foldlM_nil] at h
    replace h : some acc = some m := h
    injection h with h
    subst h
    simp [specFirstEligible, Option.or_none]
  | cons e es ih =>
    rcases e with ⟨e1, e2⟩
    intro acc m h
    rw [List.foldlM_cons] at h
    rcases hcv : isClassValid e1 e2 psr4 psr0 cmDirs with _ | ok
    · have hm0 : mergeStep psr4 psr0 cmDirs acc (e1, e2) = none := by
        unfold mergeStep
        dsimp only
        rw [hcv]
        rfl
      rw [hm0] at h
      exact Option.noConfusion h
    · have hm : mergeStep psr4 psr0 cmDirs acc (e1, e2) =
          some (if (ok && (List.lookup e1 acc).isNone) = true
                then acc ++ [(e1, e2)] else acc) := by
        unfold mergeStep
        dsimp only
        rw [hcv]
        rfl
      rw [hm] at h
      replace h : List.foldlM (mergeStep psr4 psr0 cmDirs)
          (if (ok && (List.lookup e1 acc).isNone) = true
           then acc ++ [(e1, e2)] else acc) es = some m := h
      have ih' := ih _ m h
      rw [ih']
      have hspec : specFirstEligible psr4 psr0 cmDirs c ((e1, e2) :: es) =
          (if (isClassValid e1 e2 psr4 psr0 cmDirs == some true) = true
           then (if (e1 == c) = true then some e2
                 else specFirstEligible psr4 psr0 cmDirs c es)
           else specFirstEligible psr4 psr0 cmDirs c es) := by
        unfold specFirstEligible
        by_cases hpred : (isClassValid e1 e2 psr4 psr0 cmDirs == some true) = true
        · rw [if_pos hpred, List.filter_cons_of_pos (by dsimp only; exact hpred)]
          by_cases hec : (e1 == c) = true
          · rw [if_pos hec, List.find?_cons_of_pos _ (by dsimp only; exact hec)]
            rfl
          · rw [if_neg hec, List.find?_cons_of_neg _ (by dsimp only; simp [hec])]
        · rw [if_neg hpred, List.filter_cons_of_neg (by dsimp only; simp [hpred])]
      rw [hspec, hcv]
      by_cases hok : ok = true
      · subst hok
        rw [if_pos (show ((some true : Option Bool) == some true) = true from by simp)]
        by_cases hnl : (List.lookup e1 acc).isNone = true
        · rw [if_pos (show (true && (List.lookup e1 acc).isNone) = true from by
              rw [Bool.true_and]; exact hnl)]
          rw [lookup_append, Option.or_assoc]
          by_cases hce : (c == e1) = true
          · have heq : c = e1 := by simpa using hce
            have hw : List.lookup c acc = none := by
              rw [heq]
              exact Option.eq_none_of_isNone hnl
            rw [hw, Option.none_or, Option.none_or, lookup_singleton,
              if_pos hce, if_pos (by simpa using heq.symm)]
            rfl
          · rw [lookup_singleton, if_neg hce,
              if_neg (show ¬ (e1 == c) = true by
                intro hec
                exact hce (by simpa using (by simpa using hec : e1 = c).symm)),
              Option.none_or]
        · rw [if_neg (show ¬ (true && (List.lookup e1 acc).isNone) = true from by
              rw [Bool.true_and]; exact hnl)]
          by_cases hec : (e1 == c) = true
          · have heq : e1 = c := by simpa using hec
            have hw : ∃ v, List.lookup c acc = some v := by
              rw [← heq]
              rcases hl : List.lookup e1 acc with _ | v
              · rw [hl] at hnl
                exact absurd rfl hnl
              · exact ⟨v, rfl⟩
            obtain ⟨v, hv⟩ := hw
            rw [hv, if_pos hec]
            rfl
          · rw [if_neg hec]
      · rw [if_neg (show ¬ ((some ok : Option Bool) == some true) = true from by
            simp [hok]),
          if_neg (show ¬ (ok && (List.lookup e1 acc).isNone) = true from by simp [hok])]

/-- C6 counterexample: the claim says the table maps each symbol to the
file of its *first occurrence in the walker's entry stream*.  When the
first occurrence of `App\Foo` is in a PSR-4 non-compliant file and a later
occurrence is compliant, the merge (which filters before inserting) keeps
the later file, not the first occurrence's file. -/
theorem c6_first_wins_cex :
    runMerge [(phpBytes "App\\", phpBytes "/src")] [] []
        [(phpBytes "App\\Foo", phpBytes "/src/Bar.php"),
         (phpBytes "App\\Foo", phpBytes "/src/Foo.php")] =
      some [(phpBytes "App\\Foo", phpBytes "/src/Foo.php")] ∧
    specFirstOccurrence (phpBytes "App\\Foo")
        [(phpBytes "App\\Foo", phpBytes "/src/Bar.php"),
         (phpBytes "App\\Foo", phpBytes "/src/Foo.php")] =
      some (phpBytes "/src/Bar.php") ∧
    phpBytes "/src/Foo.php" ≠ phpBytes "/src/Bar.php" := by
  refine ⟨by decide, by decide, by decide⟩

/-- C6 (amended): whenever the merge completes without a classifier panic,
the final table maps each symbol to the file of its first
*classifier-approved* occurrence in the entry stream (first-eligible-wins);
later entries for an already-present symbol never change its binding. -/
theorem c6_first_eligible_wins (entries : List (List Nat × List Nat))
    (psr4 psr0 : List (List Nat × List Nat)) (cmDirs : List (List Nat))
    (m : List (List Nat × List Nat)) (c : List Nat)
    (h : runMerge psr4 psr0 cmDirs entries = some m) :
    List.lookup c m = specFirstEligible psr4 psr0 cmDirs c entries := by
  have hgo := runMerge_go psr4 psr0 cmDirs c entries [] m h
  simpa [List.lookup, Option.none_or] using hgo

/-- C6 witness: the characterisation applied at the concrete two-entry
stream of the counterexample. -/
theorem c6_first_eligible_wins_witness :
    List.lookup (phpBytes "App\\Foo")
        [(phpBytes "App\\Foo", phpBytes "/src/Foo.php")] =
      specFirstEligible [(phpBytes "App\\", phpBytes "/src")] [] []
        (phpBytes "App\\Foo")
        [(phpBytes "App\\Foo", phpBytes "/src/Bar.php"),
         (phpBytes "App\\Foo", phpBytes "/src/Foo.php")] :=
  c6_first_eligible_wins
    [(phpBytes "App\\Foo", phpBytes "/src/Bar.php"),
     (phpBytes "App\\Foo", phpBytes "/src/Foo.php")]
    [(phpBytes "App\\", phpBytes "/src")] [] []
    [(phpBytes "App\\Foo", phpBytes "/src/Foo.php")] (phpBytes "App\\Foo")
    (by decide)

/-!
Cache-store claims (`cache.rs`).
-/

/-- C7: `dirs_unchanged` returns true only if the cache holds at least one
file and one directory mtime, every requested root that exists and is not
a single file appears in the directory-mtime table, and every cached
directory mtime equals the filesystem's current mtime and is non-zero. -/
theorem c7_dirs_unchanged (fs : FSModel) (cache : CacheData)
    (dirs : List (List Nat)) (h : dirsUnchanged fs cache dirs = true) :
    (cache.files ≠ [] ∧ cache.dirMtimes ≠ []) ∧
    (∀ d ∈ dirs, fs.pathExists d = true → fs.isFile d = false →
      (cache.dirMtimes.lookup d).isSome = true) ∧
    (∀ p ∈ cache.dirMtimes, fs.mtime p.1 = p.2 ∧ p.2 ≠ 0) := by
  unfold dirsUnchanged at h
  by_cases hc : (cache.dirMtimes.isEmpty || cache.files.isEmpty) = true
  · rw [if_pos hc] at h
    exact absurd h (by simp)
  · rw [if_neg hc] at h
    by_cases h2 : (dirs.any (fun d =>
        !fs.isFile d && (fs.pathExists d && (cache.dirMtimes.lookup d).isNone))) = true
    · rw [if_pos h2] at h
      exact absurd h (by simp)
    · rw [if_neg h2] at h
      simp only [Bool.or_eq_true, not_or, Bool.not_eq_true, List.isEmpty_eq_false] at hc
      refine ⟨⟨hc.2, hc.1⟩, ?_, ?_⟩
      · intro d hd hex hisf
        simp only [List.any_eq_true, not_exists] at h2
        have hda := h2 d
        simp only [not_and] at hda
        rcases hio : (cache.dirMtimes.lookup d).isSome with _ | _
        · exfalso
          apply hda hd
          rw [hisf, hex]
          simp only [Bool.not_false, Bool.true_and]
          rw [Option.isNone_iff_eq_none.mpr (by
            rcases hl : cache.dirMtimes.lookup d with _ | v
            · rfl
            · rw [hl] at hio; exact absurd hio (by simp))]
        · rfl
      · intro p hp
        have := List.all_eq_true.mp h p hp
        simp only [Bool.and_eq_true, beq_iff_eq, Bool.not_eq_true', beq_eq_false_iff_ne,
          ne_eq] at this
        exact ⟨this.1, by omega⟩

/-- C7 witness: the implication applied at a concrete filesystem model and
cache for which `dirs_unchanged` evaluates to true. -/
theorem c7_dirs_unchanged_witness :
    ((⟨2, [(phpBytes "/a/F.php", ⟨5, [phpBytes "F"]⟩)],
        [(phpBytes "/a", 5)]⟩ : CacheData).files ≠ [] ∧
      (⟨2, [(phpBytes "/a/F.php", ⟨5, [phpBytes "F"]⟩)],
        [(phpBytes "/a", 5)]⟩ : CacheData).dirMtimes ≠ []) ∧
    (∀ d ∈ [phpBytes "/a"],
      (⟨fun _ => false, fun _ => true, fun _ => 5⟩ : FSModel).pathExists d = true →
      (⟨fun _ => false, fun _ => true, fun _ => 5⟩ : FSModel).isFile d = false →
      ((⟨2, [(phpBytes "/a/F.php", ⟨5, [phpBytes "F"]⟩)],
          [(phpBytes "/a", 5)]⟩ : CacheData).dirMtimes.lookup d).isSome = true) ∧
    (∀ p ∈ (⟨2, [(phpBytes "/a/F.php", ⟨5, [phpBytes "F"]⟩)],
        [(phpBytes "/a", 5)]⟩ : CacheData).dirMtimes,
      (⟨fun _ => false, fun _ => true, fun _ => 5⟩ : FSModel).mtime p.1 = p.2 ∧
        p.2 ≠ 0) :=
  c7_dirs_unchanged ⟨fun _ => false, fun _ => true, fun _ => 5⟩
    ⟨2, [(phpBytes "/a/F.php", ⟨5, [phpBytes "F"]⟩)], [(phpBytes "/a", 5)]⟩
    [phpBytes "/a"] (by decide)

/-- C8: a cache persisted and reloaded under the current schema version
reproduces identical `files` and `dir_mtimes` maps, and a persisted cache
carrying any other version loads as the empty default.  (The serde JSON
encode/decode pair is modelled as the identity on parsed values, its
documented contract; the repository logic under proof is the version
filter and defaulting of `load_cache`.) -/
theorem c8_cache_roundtrip :
    (∀ c : CacheData, c.version = CACHE_VERSION →
      (loadCache (saveCache c)).files = c.files ∧
      (loadCache (saveCache c)).dirMtimes = c.dirMtimes) ∧
    (∀ c : CacheData, c.version ≠ CACHE_VERSION →
      loadCache (some c) = defaultCacheData) ∧
    loadCache none = defaultCacheData := by
  refine ⟨?_, ?_, rfl⟩
  · intro c h
    unfold loadCache saveCache
    dsimp only
    rw [if_pos h]
    exact ⟨rfl, rfl⟩
  · intro c h
    unfold loadCache
    dsimp only
    rw [if_neg h]

/-- C8 witness: the round trip at a concrete populated cache, and the
version-mismatch default at version 1. -/
theorem c8_cache_roundtrip_witness :
    ((loadCache (saveCache ⟨2, [(phpBytes "/a/F.php", ⟨7, [phpBytes "F"]⟩)],
        [(phpBytes "/a", 7)]⟩)).files =
      [(phpBytes "/a/F.php", ⟨7, [phpBytes "F"]⟩)] ∧
     (loadCache (saveCache ⟨2, [(phpBytes "/a/F.php", ⟨7, [phpBytes "F"]⟩)],
        [(phpBytes "/a", 7)]⟩)).dirMtimes = [(phpBytes "/a", 7)]) ∧
    loadCache (some ⟨1, [(phpBytes "/a/F.php", ⟨7, [phpBytes "F"]⟩)],
      [(phpBytes "/a", 7)]⟩) = defaultCacheData :=
  ⟨c8_cache_roundtrip.1 ⟨2, [(phpBytes "/a/F.php", ⟨7, [phpBytes "F"]⟩)],
      [(phpBytes "/a", 7)]⟩ rfl,
   c8_cache_roundtrip.2.1 ⟨1, [(phpBytes "/a/F.php", ⟨7, [phpBytes "F"]⟩)],
      [(phpBytes "/a", 7)]⟩ (by decide)⟩
